import Mathlib

/-!
Verification of the abbreviation-expansion core (`helix-core/src/abbreviations.rs`).

The document, selection, per-cursor change computation, table operations and
loader are embedded shallowly.  Strings are modelled as lists of characters.
External collaborators that live outside the sources (the rope, the
word-boundary movement oracle, `Range::cursor`, `Range::len`,
`Transaction::change_by_selection`, file reading) are modelled from the spec,
each marked as such in its doc comment; in particular the word-boundary oracle
is an injected function parameter, as the spec's design notes require.
-/

set_option autoImplicit false

namespace Helix

/-- A document snapshot: the rope's contents as an indexable sequence of
characters, read-only for the duration of one expansion call. -/
abbrev Doc := List Char

/-- Modelled from the spec: a `Change` is a triple (start offset, end offset,
optional replacement text) describing one region substitution. -/
abbrev Change := Nat × Nat × Option (List Char)

/-- Modelled from the spec: a `Transaction` is an ordered collection of
`Change`s, one per cursor, against the original document snapshot. -/
abbrev Transaction := List Change

/-- A cursor range as constructed in the source: an anchor offset, a head
offset and an optional rendering hint. -/
structure Range where
  anchor : Nat
  head : Nat
  old_visual_position : Option (Nat × Nat)
deriving DecidableEq

/-- Modelled from the spec (the body of `Range::cursor` is outside the
sources): the range's caret offset is its active end, the head. -/
def Range.cursor (r : Range) : Nat := r.head

/-- Modelled from the spec (the body of `Range::len` is outside the
sources): the range's length is the unsigned span between anchor and head. -/
def Range.len (r : Range) : Nat := max r.anchor r.head - min r.anchor r.head

/-- Modelled from the spec: a selection is an ordered sequence of cursor
ranges. -/
abbrev Selection := List Range

/-- Modelled from the spec (the word-boundary oracle
`movement::move_prev_word_start` is an external collaborator): it is injected
as a function from document, probe range and count to a range whose head marks
the start of the preceding word and whose anchor marks its end. -/
abbrev WordOracle := Doc → Range → Nat → Range

/-- `doc.slice(a..b)`: the characters of the document at offsets `[a, b)`. -/
def slice (doc : Doc) (a b : Nat) : List Char :=
  (doc.take b).drop a

/-- The abbreviation table `Abbreviations(HashMap<String, String>)`, modelled
as an association list of (abbreviation, expansion) pairs in which lookup
finds the most recent insertion, matching the map's overwrite semantics. -/
abbrev Abbreviations := List (List Char × List Char)

/-- `Abbreviations::default`: the empty table. -/
def Abbreviations.default : Abbreviations := []

/-- `self.0.get(word)`: exact, case-sensitive lookup. -/
def Abbreviations.lookup (t : Abbreviations) (k : List Char) : Option (List Char) :=
  (t.find? (fun p => p.1 == k)).map Prod.snd

/-- `Abbreviations::insert`: stores or overwrites the mapping for `abbr`. -/
def Abbreviations.insert (t : Abbreviations) (abbr whole_word : List Char) : Abbreviations :=
  (abbr, whole_word) :: t

/-- `Abbreviations::remove`: deletes the mapping if present, a no-op
otherwise. -/
def Abbreviations.remove (t : Abbreviations) (key : List Char) : Abbreviations :=
  t.filter (fun p => !(p.1 == key))

/-- Rust's `str::split_once(sep)`: splits at the first occurrence of the
separator into the parts before and after it, `none` when the separator does
not occur. -/
def splitOnce : List Char → Char → Option (List Char × List Char)
  | [], _ => none
  | x :: xs, sep =>
    if x = sep then some ([], xs)
    else (splitOnce xs sep).map (fun p => (x :: p.1, p.2))

/-- The loader loop of `From<&PathBuf> for Abbreviations`: each line is split
once on a space and the two parts inserted; lines without a space are
skipped. -/
def Abbreviations.loadLinesAux (t : Abbreviations) : List (List Char) → Abbreviations
  | [] => t
  | l :: ls =>
    match splitOnce l ' ' with
    | some ab => Abbreviations.loadLinesAux (Abbreviations.insert t ab.1 ab.2) ls
    | none => Abbreviations.loadLinesAux t ls

/-- Bulk load from a line-based source, starting from the default table. -/
def Abbreviations.loadLines (ls : List (List Char)) : Abbreviations :=
  Abbreviations.loadLinesAux Abbreviations.default ls

/-- `From<&PathBuf> for Abbreviations`.  Modelled from the spec for the file
reading itself (`std::fs::read_to_string` is outside the sources): the read
result is an `Option` of the file's lines, `none` when the file is missing or
unreadable, in which case the default table is returned. -/
def Abbreviations.fromSource : Option (List (List Char)) → Abbreviations
  | none => Abbreviations.default
  | some ls => Abbreviations.loadLines ls

/-- The local helper `insert` inside `expand_or_insert`: the change inserting
the typed character at the cursor with no deletion. -/
def insertChar (c : Char) (cursor : Nat) : Change :=
  (cursor, cursor, some [c])

/-- The probe range built in `expand_or_insert`: anchor and head both one
offset to the left of the cursor, no rendering hint. -/
def probeAt (cursor : Nat) : Range :=
  { anchor := cursor - 1, head := cursor - 1, old_visual_position := none }

/-- The per-range closure passed to `Transaction::change_by_selection` inside
`Abbreviations::expand_or_insert`: guard for the start of the document, probe
one offset left, delegate to the word-boundary oracle, reject degenerate
words, look up the candidate word and either expand or insert verbatim. -/
def expandOne (t : Abbreviations) (oracle : WordOracle) (doc : Doc) (c : Char)
    (range : Range) : Change :=
  let cursor := range.cursor
  if cursor = 0 then insertChar c cursor
  else
    let current_word_range := oracle doc (probeAt cursor) 1
    if current_word_range.len < 1 then insertChar c cursor
    else
      let current_word := slice doc current_word_range.head current_word_range.anchor
      match Abbreviations.lookup t current_word with
      | some w => (current_word_range.cursor, cursor, some (w ++ [c]))
      | none => insertChar c cursor

/-- Modelled from the spec (`Transaction::change_by_selection` is outside the
sources): map the per-range change function over the selection's ranges in
order, collecting one change per cursor into a transaction over the original
snapshot. -/
def change_by_selection (doc : Doc) (selection : Selection) (f : Range → Change) : Transaction :=
  selection.map f

/-- `Abbreviations::expand_or_insert`: build the transaction over all cursors
and wrap it in `some`, as the source does. -/
def Abbreviations.expand_or_insert (t : Abbreviations) (oracle : WordOracle) (doc : Doc)
    (selection : Selection) (c : Char) : Option Transaction :=
  some (change_by_selection doc selection (fun range => expandOne t oracle doc c range))

/-- Modelled from the spec: applying a change replaces the region
`[start, end)` of the document with the replacement text. -/
def applyChange (doc : Doc) (ch : Change) : Doc :=
  doc.take ch.1 ++ ch.2.2.getD [] ++ doc.drop ch.2.1

/-- Natural subtraction that fails on underflow, as Rust's `usize`
subtraction would in debug builds. -/
def checkedSub (a b : Nat) : Option Nat :=
  if b ≤ a then some (a - b) else none

/-- `expandOne` with the `cursor - 1` subtraction replaced by the checked
subtraction, returning `none` if it would underflow. -/
def expandOneChecked (t : Abbreviations) (oracle : WordOracle) (doc : Doc) (c : Char)
    (range : Range) : Option Change :=
  let cursor := range.cursor
  if cursor = 0 then some (insertChar c cursor)
  else
    match checkedSub cursor 1 with
    | none => none
    | some m =>
      let probe : Range := { anchor := m, head := m, old_visual_position := none }
      let current_word_range := oracle doc probe 1
      if current_word_range.len < 1 then some (insertChar c cursor)
      else
        let current_word := slice doc current_word_range.head current_word_range.anchor
        match Abbreviations.lookup t current_word with
        | some w => some (current_word_range.cursor, cursor, some (w ++ [c]))
        | none => some (insertChar c cursor)

/-- Tables reachable from the empty table by the public operations, as the
claim states them: insert with a non-empty abbreviation, remove with any key,
and bulk load from any line-based source. -/
inductive Reachable : Abbreviations → Prop
  | default : Reachable Abbreviations.default
  | insert {t : Abbreviations} (a w : List Char) :
      Reachable t → a ≠ [] → Reachable (Abbreviations.insert t a w)
  | remove {t : Abbreviations} (k : List Char) :
      Reachable t → Reachable (Abbreviations.remove t k)
  | load (ls : List (List Char)) : Reachable (Abbreviations.loadLines ls)

/-- Tables reachable as in `Reachable`, except that bulk loading is restricted
to sources none of whose lines begins with a space (so no line has an empty
left-hand side before the first space). -/
inductive ReachableSafe : Abbreviations → Prop
  | default : ReachableSafe Abbreviations.default
  | insert {t : Abbreviations} (a w : List Char) :
      ReachableSafe t → a ≠ [] → ReachableSafe (Abbreviations.insert t a w)
  | remove {t : Abbreviations} (k : List Char) :
      ReachableSafe t → ReachableSafe (Abbreviations.remove t k)
  | load (ls : List (List Char)) (hls : ∀ l ∈ ls, l.head? ≠ some ' ') :
      ReachableSafe (Abbreviations.loadLines ls)

/-- A stub word-boundary oracle for concrete witnesses: returns the probe
range unchanged (a degenerate word). -/
def oracleId : WordOracle := fun _ r _ => r

/-- A stub word-boundary oracle for concrete witnesses: always reports the
word spanning offsets `[0, 3)` (head at its start, anchor at its end). -/
def oracleWord03 : WordOracle := fun _ _ _ => { anchor := 3, head := 0, old_visual_position := none }

/-- Lookup misses exactly when no entry of the table has the given key. -/
theorem lookup_eq_none_iff (t : Abbreviations) (k : List Char) :
    Abbreviations.lookup t k = none ↔ ∀ p ∈ t, p.1 ≠ k := by
  simp [Abbreviations.lookup, List.find?_eq_none]

/-- If a line does not begin with the separator, a successful split on that
separator yields a non-empty left-hand side. -/
theorem splitOnce_fst_ne_nil {l a b : List Char} {sep : Char}
    (h : splitOnce l sep = some (a, b)) (hl : l.head? ≠ some sep) : a ≠ [] := by
  cases l with
  | nil => simp [splitOnce] at h
  | cons x xs =>
    simp only [splitOnce] at h
    by_cases hx : x = sep
    · subst hx; simp at hl
    · rw [if_neg hx] at h
      rcases hsp : splitOnce xs sep with _ | p <;> rw [hsp] at h <;> simp at h
      intro hcon
      rw [← h.1] at hcon
      cases hcon

/-- The loader loop never introduces an empty key when no input line begins
with a space and the starting table has no empty key. -/
theorem loadLinesAux_key_ne_nil (t : Abbreviations) (ls : List (List Char))
    (ht : ∀ p ∈ t, p.1 ≠ ([] : List Char))
    (hls : ∀ l ∈ ls, l.head? ≠ some ' ') :
    ∀ p ∈ Abbreviations.loadLinesAux t ls, p.1 ≠ [] := by
  induction ls generalizing t with
  | nil => simpa [Abbreviations.loadLinesAux] using ht
  | cons l ls ih =>
    intro p hp
    simp only [Abbreviations.loadLinesAux] at hp
    rcases hsp : splitOnce l ' ' with _ | ab <;> rw [hsp] at hp
    · exact ih t ht (fun x hx => hls x (List.mem_cons_of_mem _ hx)) p hp
    · refine ih _ ?_ (fun x hx => hls x (List.mem_cons_of_mem _ hx)) p hp
      intro q hq
      rcases List.mem_cons.1 hq with rfl | hq
      · exact splitOnce_fst_ne_nil hsp (hls l (List.mem_cons_self _ _))
      · exact ht q hq

/-- C5: when a cursor's caret offset is 0, the change emitted for that cursor
is a plain insertion of the typed character at offset 0 with no deletion,
uniformly in the table and in the word-boundary oracle (so neither is
consulted). -/
theorem expand_at_start_inserts (t : Abbreviations) (oracle : WordOracle) (doc : Doc)
    (c : Char) (r : Range) (h : r.cursor = 0) :
    expandOne t oracle doc c r = (0, 0, some [c]) := by
  simp [expandOne, h, insertChar]

theorem expand_at_start_inserts_witness :
    expandOne Abbreviations.default oracleId [] 'x'
      { anchor := 0, head := 0, old_visual_position := none } = (0, 0, some ['x']) :=
  expand_at_start_inserts _ _ _ _ _ rfl

/-- C6: for a cursor at a positive offset, when the word-boundary oracle
returns a range of length less than 1 for the probe at `cursor - 1`, the
emitted change is a plain insertion of the typed character at the cursor,
uniformly in the table (so no lookup happens), identical in shape to the
start-of-document case. -/
theorem expand_degenerate_word_inserts (t : Abbreviations) (oracle : WordOracle) (doc : Doc)
    (c : Char) (r : Range)
    (h0 : r.cursor ≠ 0)
    (h1 : (oracle doc (probeAt r.cursor) 1).len < 1) :
    expandOne t oracle doc c r = (r.cursor, r.cursor, some [c]) := by
  simp [expandOne, h0, h1, insertChar]

theorem expand_degenerate_word_inserts_witness :
    expandOne Abbreviations.default oracleId ['a'] 'x'
      { anchor := 1, head := 1, old_visual_position := none } = (1, 1, some ['x']) :=
  expand_degenerate_word_inserts _ _ _ _ _ (by decide) (by decide)

/-- C7: when the candidate word delimited by the word-boundary oracle is not
a key of the table, the emitted change is exactly the unconditional
single-character insert at the cursor (start = end = cursor, replacement =
the typed character, no deletion). -/
theorem expand_no_match_inserts (t : Abbreviations) (oracle : WordOracle) (doc : Doc)
    (c : Char) (r : Range)
    (h0 : r.cursor ≠ 0)
    (hmiss : Abbreviations.lookup t (slice doc
      (oracle doc (probeAt r.cursor) 1).head
      (oracle doc (probeAt r.cursor) 1).anchor) = none) :
    expandOne t oracle doc c r = (r.cursor, r.cursor, some [c]) := by
  simp only [expandOne, insertChar]
  rw [if_neg h0]
  by_cases hlen : (oracle doc (probeAt r.cursor) 1).len < 1
  · simp [hlen]
  · simp [hlen, hmiss]

theorem expand_no_match_inserts_witness :
    expandOne Abbreviations.default oracleWord03 ['a', 'b', 'c'] 'x'
      { anchor := 3, head := 3, old_visual_position := none } = (3, 3, some ['x']) :=
  expand_no_match_inserts _ _ _ _ _ (by decide) (by decide)

/-- C4: `expand_or_insert` never fails: it returns `some` transaction for
every document, selection, table, oracle and character, and on the empty
selection the transaction is the empty (but valid) one. -/
theorem expand_or_insert_never_fails (t : Abbreviations) (oracle : WordOracle) (doc : Doc)
    (sel : Selection) (c : Char) :
    (Abbreviations.expand_or_insert t oracle doc sel c).isSome = true ∧
    Abbreviations.expand_or_insert t oracle doc [] c = some [] :=
  ⟨rfl, rfl⟩

theorem expand_or_insert_never_fails_witness :
    (Abbreviations.expand_or_insert Abbreviations.default oracleId ['a']
      [{ anchor := 1, head := 1, old_visual_position := none }] 'x').isSome = true ∧
    Abbreviations.expand_or_insert Abbreviations.default oracleId ['a'] [] 'x' = some [] :=
  expand_or_insert_never_fails Abbreviations.default oracleId ['a']
    [{ anchor := 1, head := 1, old_visual_position := none }] 'x'

/-- C9: constructing the table from a source that is missing or cannot be
read yields the default (empty) table, on which every lookup misses; no
error is propagated. -/
theorem from_missing_source_empty (k : List Char) :
    Abbreviations.fromSource none = Abbreviations.default ∧
    Abbreviations.lookup (Abbreviations.fromSource none) k = none :=
  ⟨rfl, rfl⟩

theorem from_missing_source_empty_witness :
    Abbreviations.fromSource none = Abbreviations.default ∧
    Abbreviations.lookup (Abbreviations.fromSource none) ['a'] = none :=
  from_missing_source_empty ['a']

/-- C10: the `cursor - 1` subtraction in the per-cursor computation never
underflows: replacing it by a checked subtraction that fails on underflow
changes nothing, on every input — the guard `cursor == 0` has already
returned on the only branch where it could underflow. -/
theorem expand_cursor_sub_no_underflow (t : Abbreviations) (oracle : WordOracle) (doc : Doc)
    (c : Char) (r : Range) :
    expandOneChecked t oracle doc c r = some (expandOne t oracle doc c r) := by
  by_cases h : r.cursor = 0
  · simp [expandOneChecked, expandOne, h]
  · have h1 : 1 ≤ r.cursor := Nat.one_le_iff_ne_zero.mpr h
    simp only [expandOneChecked, expandOne, if_neg h, checkedSub, if_pos h1, probeAt]
    split
    · rfl
    · split <;> rfl

/-- C1: when the word `w` delimited by the oracle (head = its start, anchor =
its end, which is the cursor, so `w` immediately precedes the cursor) is a
table key mapping to `e`, the emitted change spans from the start of `w` to
the original cursor offset with replacement `e ++ [typed character]`, and
applying it yields a document of length
`len(before) - len(w) + len(e) + 1`. -/
theorem expand_match_substitutes (t : Abbreviations) (oracle : WordOracle) (doc : Doc)
    (c : Char) (r : Range) (wr : Range) (e : List Char)
    (h0 : r.cursor ≠ 0)
    (hwr : oracle doc (probeAt r.cursor) 1 = wr)
    (hspan : wr.head < wr.anchor)
    (hend : wr.anchor = r.cursor)
    (hdoc : r.cursor ≤ doc.length)
    (hhit : Abbreviations.lookup t (slice doc wr.head wr.anchor) = some e) :
    expandOne t oracle doc c r = (wr.head, r.cursor, some (e ++ [c])) ∧
    (applyChange doc (expandOne t oracle doc c r)).length =
      doc.length - (slice doc wr.head wr.anchor).length + e.length + 1 := by
  have hlen : ¬ wr.len < 1 := by
    unfold Range.len
    omega
  have hch : expandOne t oracle doc c r = (wr.head, r.cursor, some (e ++ [c])) := by
    simp only [expandOne]
    rw [if_neg h0, hwr, if_neg hlen, hhit]
    rfl
  refine ⟨hch, ?_⟩
  rw [hch]
  have ha : wr.anchor ≤ doc.length := hend ▸ hdoc
  have hh : wr.head ≤ doc.length := le_trans hspan.le ha
  have hslice : (slice doc wr.head wr.anchor).length = wr.anchor - wr.head := by
    simp only [slice, List.length_drop, List.length_take, Nat.min_eq_left ha]
  have htake : (doc.take wr.head).length = wr.head := by
    rw [List.length_take, Nat.min_eq_left hh]
  simp only [applyChange, List.length_append, List.length_drop,
    Option.getD_some, List.length_singleton, hslice, htake]
  omega

theorem expand_match_substitutes_witness :
    expandOne [(['b', 't', 'w'], ['b', 'y', ' ', 't', 'h', 'e', ' ', 'w', 'a', 'y'])]
        oracleWord03 ['b', 't', 'w'] ' '
        { anchor := 3, head := 3, old_visual_position := none } =
      (0, 3, some ['b', 'y', ' ', 't', 'h', 'e', ' ', 'w', 'a', 'y', ' ']) ∧
    (applyChange ['b', 't', 'w']
        (expandOne [(['b', 't', 'w'], ['b', 'y', ' ', 't', 'h', 'e', ' ', 'w', 'a', 'y'])]
          oracleWord03 ['b', 't', 'w'] ' '
          { anchor := 3, head := 3, old_visual_position := none })).length = 11 :=
  expand_match_substitutes
    [(['b', 't', 'w'], ['b', 'y', ' ', 't', 'h', 'e', ' ', 'w', 'a', 'y'])]
    oracleWord03 ['b', 't', 'w'] ' '
    { anchor := 3, head := 3, old_visual_position := none }
    { anchor := 3, head := 0, old_visual_position := none }
    ['b', 'y', ' ', 't', 'h', 'e', ' ', 'w', 'a', 'y']
    (by decide) rfl (by decide) (by decide) (by decide) (by decide)

/-- C8: for a selection of N cursor ranges the transaction has exactly N
changes; the i-th change is the per-cursor computation of the i-th range over
the original document; and that per-cursor computation is exactly what
`expand_or_insert` emits when the range is the sole cursor, so cursors cannot
influence one another. -/
theorem expand_per_cursor_independent (t : Abbreviations) (oracle : WordOracle) (doc : Doc)
    (sel : Selection) (c : Char) (tx : Transaction)
    (h : Abbreviations.expand_or_insert t oracle doc sel c = some tx) :
    tx.length = sel.length ∧
    (∀ i (hi : i < sel.length), tx[i]? = some (expandOne t oracle doc c sel[i])) ∧
    (∀ r : Range, Abbreviations.expand_or_insert t oracle doc [r] c =
      some [expandOne t oracle doc c r]) := by
  obtain rfl : tx = sel.map (fun range => expandOne t oracle doc c range) :=
    (Option.some.inj h).symm
  refine ⟨by simp, ?_, fun r => rfl⟩
  intro i hi
  simp [List.getElem?_eq_getElem, hi]

theorem expand_per_cursor_independent_witness :
    ([(0, 0, some ['x']), (0, 0, some ['x'])] : Transaction)[0]? =
      some (expandOne Abbreviations.default oracleId [] 'x'
        { anchor := 0, head := 0, old_visual_position := none }) :=
  (expand_per_cursor_independent Abbreviations.default oracleId []
      [{ anchor := 0, head := 0, old_visual_position := none },
       { anchor := 0, head := 0, old_visual_position := none }] 'x' _ rfl).2.1 0 (by decide)

/-- C2 counterexample: loading the single line `" x"` (empty left-hand side
before the first space) is not skipped — it yields the entry mapping the
empty abbreviation to `"x"`, so the table is not empty. -/
theorem load_empty_lhs_not_skipped :
    Abbreviations.loadLines [[' ', 'x']] ≠ Abbreviations.default ∧
    Abbreviations.lookup (Abbreviations.loadLines [[' ', 'x']]) [] = some ['x'] := by
  constructor <;> decide

/-- C2 amended: each line is split on the first space into (abbreviation,
expansion) and that pair is inserted — including when the abbreviation is
empty; only lines with no space are skipped.  Concretely, loading
`["a b"]` yields `lookup "a" = "b"` and loading `["noSpaceHere"]` yields no
entry. -/
theorem load_line_split_behavior :
    (∀ l : List Char, splitOnce l ' ' = none →
      Abbreviations.loadLines [l] = Abbreviations.default) ∧
    (∀ l a b, splitOnce l ' ' = some (a, b) →
      Abbreviations.loadLines [l] = [(a, b)]) ∧
    Abbreviations.lookup (Abbreviations.loadLines [['a', ' ', 'b']]) ['a'] = some ['b'] ∧
    (∀ k, Abbreviations.lookup
      (Abbreviations.loadLines
        [['n', 'o', 'S', 'p', 'a', 'c', 'e', 'H', 'e', 'r', 'e']]) k = none) := by
  refine ⟨?_, ?_, by decide, fun k => rfl⟩
  · intro l hsplit
    simp [Abbreviations.loadLines, Abbreviations.loadLinesAux, hsplit]
  · intro l a b hsplit
    simp [Abbreviations.loadLines, Abbreviations.loadLinesAux, hsplit,
      Abbreviations.insert, Abbreviations.default]

theorem load_line_split_behavior_witness :
    Abbreviations.loadLines [['x']] = Abbreviations.default ∧
    Abbreviations.loadLines [[' ', 'x']] = [([], ['x'])] :=
  ⟨load_line_split_behavior.1 ['x'] (by decide),
   load_line_split_behavior.2.1 [' ', 'x'] [] ['x'] (by decide)⟩

/-- C3 counterexample: it is not true that every table reachable by the
public operations (insert with non-empty abbreviation, remove, bulk load)
has no entry for the empty key — bulk loading the line `" x"` reaches a
table in which the empty key maps to `"x"`. -/
theorem reachable_empty_key_counterexample :
    ¬ (∀ a : Abbreviations, Reachable a → Abbreviations.lookup a [] = none) := by
  intro h
  have h1 := h (Abbreviations.loadLines [[' ', 'x']]) (Reachable.load [[' ', 'x']])
  have h2 : Abbreviations.lookup (Abbreviations.loadLines [[' ', 'x']]) [] = some ['x'] := by
    decide
  rw [h1] at h2
  cases h2

/-- C3 amended: every table reachable from the empty table by insert with a
non-empty abbreviation, remove with any key, and bulk load from a source
none of whose lines begins with a space (so no line has an empty left-hand
side) contains no entry whose key is the empty string. -/
theorem reachable_safe_no_empty_key (a : Abbreviations) (h : ReachableSafe a) :
    Abbreviations.lookup a [] = none := by
  induction h with
  | default => rfl
  | insert b w _ hb ih =>
    rw [lookup_eq_none_iff] at ih ⊢
    intro p hp
    rcases List.mem_cons.1 hp with rfl | hp
    · exact hb
    · exact ih p hp
  | remove k _ ih =>
    rw [lookup_eq_none_iff] at ih ⊢
    intro p hp
    exact ih p (List.mem_of_mem_filter hp)
  | load ls hls =>
    rw [lookup_eq_none_iff]
    exact loadLinesAux_key_ne_nil Abbreviations.default ls (by simp [Abbreviations.default]) hls

theorem reachable_safe_no_empty_key_witness :
    Abbreviations.lookup (Abbreviations.loadLines [['a', ' ', 'b']]) [] = none :=
  reachable_safe_no_empty_key _ (ReachableSafe.load [['a', ' ', 'b']] (by decide))

end Helix
